import Mathlib

/-!
Verification of the `bsv-blockarchive` repository: a shallow embedding in Lean 4
of the archive's data model and of the consistency-checking algorithms
(`src/cmds/src/blockarchive.rs`, `src/lib/src/sfb_archive.rs`,
`src/lib/src/block_archive.rs`, `src/lib/src/result.rs`), together with theorems
settling the specification's claims about them.

Modelling conventions:
  * machine integers are `Nat`; byte sequences are `List Nat`; hex text is
    `List Char` (Rust slices strings of ASCII hex by byte index, which for
    these strings coincides with character index);
  * fallible Rust code returns `Except`; a Rust `panic!` (an `unwrap` of a
    `None`/`Err`) is modelled as the `none` of an outer `Option`;
  * Rust `while` loops are embedded with an explicit fuel parameter, and a
    lemma shows the fuel chosen never runs out, so the fuelled function agrees
    with the source's unbounded loop;
  * the external chain codec (crate `bitcoinsv`) is out of scope of the
    repository: the double-SHA256 combiner used by the Merkle fold is an
    arbitrary parameter `H`, and a `BlockHash` is represented by its canonical
    64-character hex text, so that `encode_hex`/`from_hex` are the identity on
    that text.
-/

namespace BlockArchive

/-- The library error type.

Modelled from the spec: `src/lib/src/result.rs` declares `pub enum Error {}`
with no variants, although `src/cmds/src/blockarchive.rs` matches on
`Error::BlockNotFound` (so the variant declarations are missing from the
sources given); the three error kinds are taken from the spec, section 7. -/
inductive Error where
  | BlockNotFound
  | DecodeError
  | IoError
deriving DecidableEq, Repr

/-! ## Single-block Merkle verification, `check_single_block`
     (`src/cmds/src/blockarchive.rs`, lines 98-133) -/

/-- The transaction-draining loop of `check_single_block` (lines 100-110):
walk the stream of transaction results in order, collecting each hash
(`hashes.push_back(t.hash())`); the first `Err(e)` ends the function with
`Err(Error::from(e))`. -/
def drainHashes {ε α : Type} : List (Except ε α) → Except ε (List α)
  | [] => Except.ok []
  | Except.ok h :: rest =>
    match drainHashes rest with
    | Except.ok l => Except.ok (h :: l)
    | Except.error e => Except.error e
  | Except.error e :: _ => Except.error e

/-- The inner loop of the Merkle reduction (lines 114-129): `n` counts the
elements of the current level still to be consumed; each iteration pops one or
two hashes from the front of the deque (popping an empty deque is the `unwrap`
panic, modelled as `none`), pairs a trailing unpaired element with itself, and
pushes the combined hash `H h1 h2` onto the back of the same deque. -/
def innerLoop {α : Type} (H : α → α → α) : Nat → List α → Option (List α)
  | 0, q => some q
  | 1, [] => none
  | 1, h1 :: q => innerLoop H 0 (q ++ [H h1 h1])
  | _ + 2, [] => none
  | _ + 2, [_] => none
  | m + 2, h1 :: h2 :: q => innerLoop H m (q ++ [H h1 h2])

/-- The outer Merkle loop of `check_single_block` (line 112,
`while hashes.len() > 1`), embedded with fuel: each pass runs the inner loop
with `n` set to the current deque length. -/
def calcLoopF {α : Type} (H : α → α → α) : Nat → List α → Option (List α)
  | 0, _ => none
  | fuel + 1, q =>
    if q.length > 1 then
      match innerLoop H q.length q with
      | none => none
      | some q2 => calcLoopF H fuel q2
    else some q

/-- `check_single_block` (lines 98-133): drain the transaction stream, then
reduce the collected hashes to a Merkle root and compare it with the header's
`merkle_root`.  The result is `none` when the source panics (the final
`hashes.pop_front().unwrap()` on an empty deque, line 131), `some (.error e)`
when a transaction read fails, and `some (.ok verdict)` otherwise. -/
def checkSingleBlock {ε α : Type} [DecidableEq α] (H : α → α → α)
    (txs : List (Except ε α)) (merkleRoot : α) : Option (Except ε Bool) :=
  match drainHashes txs with
  | Except.error e => some (Except.error e)
  | Except.ok hashes =>
    match calcLoopF H (hashes.length + 1) hashes with
    | none => none
    | some [] => none
    | some (r :: _) => some (Except.ok (decide (r = merkleRoot)))

/-! ### The reference Merkle fold (spec, section 4.3)

These definitions follow the specification's words, to be compared with the
embedding of the source above: reduce the leaf sequence in original order two
elements at a time, pairing a trailing unpaired element with itself, replacing
each pair by the combined hash, until one hash remains. -/

/-- One reduction pass of the reference fold: pair up the sequence in order,
duplicating a trailing unpaired element. -/
def pairStep {α : Type} (H : α → α → α) : List α → List α
  | [] => []
  | [a] => [H a a]
  | a :: b :: rest => H a b :: pairStep H rest

theorem pairStep_length {α : Type} (H : α → α → α) :
    ∀ l : List α, (pairStep H l).length = (l.length + 1) / 2
  | [] => by simp [pairStep]
  | [_] => by simp [pairStep]
  | _ :: _ :: rest => by
    simp only [pairStep, List.length_cons, pairStep_length H rest]
    omega

/-- The reference Merkle root: repeat `pairStep` until one hash remains
(`none` for an empty leaf sequence, for which the fold is undefined). -/
def merkleRootRef {α : Type} (H : α → α → α) : List α → Option α
  | [] => none
  | [a] => some a
  | a :: b :: rest => merkleRootRef H (pairStep H (a :: b :: rest))
termination_by l => l.length
decreasing_by
  simp only [pairStep, List.length_cons, pairStep_length H rest]
  omega

theorem merkleRootRef_isSome {α : Type} (H : α → α → α) :
    ∀ q : List α, q ≠ [] → ∃ r, merkleRootRef H q = some r
  | [], h => absurd rfl h
  | [a], _ => ⟨a, by simp [merkleRootRef]⟩
  | a :: b :: rest, _ => by
    obtain ⟨r, hr⟩ :=
      merkleRootRef_isSome H (pairStep H (a :: b :: rest)) (by simp [pairStep])
    exact ⟨r, by rw [merkleRootRef]; exact hr⟩
termination_by q => q.length
decreasing_by
  simp only [pairStep, List.length_cons, pairStep_length H rest]
  omega

/-- The result queue after the outer loop, as the reference fold predicts it. -/
def refQueue {α : Type} (H : α → α → α) (q : List α) : List α :=
  match merkleRootRef H q with
  | none => []
  | some r => [r]

/-- The inner loop with `n` set to the length of the level `q`, run on a deque
holding `q` followed by already-produced parents `acc`, consumes exactly `q`
and appends `pairStep H q`. -/
theorem innerLoop_append {α : Type} (H : α → α → α) :
    ∀ q acc : List α, innerLoop H q.length (q ++ acc) = some (acc ++ pairStep H q)
  | [], acc => by simp [innerLoop, pairStep]
  | [a], acc => by simp [innerLoop, pairStep]
  | a :: b :: rest, acc => by
    have ih := innerLoop_append H rest (acc ++ [H a b])
    have step : innerLoop H (a :: b :: rest).length ((a :: b :: rest) ++ acc)
        = innerLoop H rest.length ((rest ++ acc) ++ [H a b]) := rfl
    rw [step, List.append_assoc, ih]
    simp [pairStep]

/-- With fuel exceeding the level length, the fuelled outer loop computes the
reference fold. -/
theorem calcLoopF_eq {α : Type} (H : α → α → α) :
    ∀ (fuel : Nat) (q : List α), q.length < fuel →
      calcLoopF H fuel q = some (refQueue H q) := by
  intro fuel
  induction fuel with
  | zero => intro q h; omega
  | succ f ih =>
    intro q hlt
    match q with
    | [] => simp [calcLoopF, refQueue, merkleRootRef]
    | [a] => simp [calcLoopF, refQueue, merkleRootRef]
    | a :: b :: rest =>
      have hlen : (a :: b :: rest).length > 1 := by simp
      have hinner := innerLoop_append H (a :: b :: rest) []
      rw [List.append_nil] at hinner
      have hrec : calcLoopF H (f + 1) (a :: b :: rest)
          = calcLoopF H f (pairStep H (a :: b :: rest)) := by
        simp only [calcLoopF, if_pos hlen, hinner, List.nil_append]
      have hsmall : (pairStep H (a :: b :: rest)).length < f := by
        have h1 := pairStep_length H (a :: b :: rest)
        simp only [List.length_cons] at h1 hlt ⊢
        omega
      rw [hrec, ih _ hsmall]
      have hrq : refQueue H (a :: b :: rest) = refQueue H (pairStep H (a :: b :: rest)) := by
        unfold refQueue
        rw [merkleRootRef]
      rw [hrq]

theorem drainHashes_map_ok {ε α : Type} :
    ∀ txs : List α, drainHashes (ε := ε) (txs.map Except.ok) = Except.ok txs
  | [] => rfl
  | t :: rest => by
    simp only [List.map_cons, drainHashes, drainHashes_map_ok rest]

theorem drainHashes_ok_length {ε α : Type} :
    ∀ (txs : List (Except ε α)) (l : List α),
      drainHashes txs = Except.ok l → l.length = txs.length
  | [], l, h => by simp [drainHashes] at h; simp [← h]
  | Except.ok a :: rest, l, h => by
    simp only [drainHashes] at h
    match hr : drainHashes rest with
    | Except.ok l2 =>
      rw [hr] at h
      cases h
      simp [drainHashes_ok_length rest l2 hr]
    | Except.error e => rw [hr] at h; cases h
  | Except.error e :: rest, l, h => by simp [drainHashes] at h

/-- When the drained hash list is non-empty, `check_single_block` returns the
verdict comparing the reference Merkle root with the header's `merkle_root`. -/
theorem checkSingleBlock_nonempty {ε α : Type} [DecidableEq α] (H : α → α → α)
    (hashes : List α) (mr : α) (hne : hashes ≠ []) :
    ∃ r, merkleRootRef H hashes = some r ∧
      checkSingleBlock (ε := ε) H (hashes.map Except.ok) mr
        = some (Except.ok (decide (r = mr))) := by
  obtain ⟨r, hr⟩ := merkleRootRef_isSome H hashes hne
  refine ⟨r, hr, ?_⟩
  have hcalc := calcLoopF_eq H (hashes.length + 1) hashes (by omega)
  unfold checkSingleBlock
  simp only [drainHashes_map_ok]
  rw [hcalc]
  unfold refQueue
  rw [hr]

/-- C1: for every non-empty sequence of transaction hashes drained from the
block's transaction stream, the root computed by `check_single_block` equals
the reference fold (reduce in original order two at a time, duplicate a
trailing unpaired element, combine pairs with the double-SHA256 combiner `H`,
repeat until one hash remains), and the returned verdict is `true` if and only
if that root equals `header.merkle_root` (a mismatch is a verdict `Ok(false)`,
not an error); in particular the root of one leaf is that leaf, of two leaves
is `H h1 h2`, and of three leaves is `H (H h1 h2) (H h3 h3)`. -/
theorem check_single_block_merkle_fold {ε α : Type} [DecidableEq α]
    (H : α → α → α) (hashes : List α) (mr : α) (h1 h2 h3 : α)
    (hne : hashes ≠ []) :
    (∃ r, merkleRootRef H hashes = some r ∧
        checkSingleBlock (ε := ε) H (hashes.map Except.ok) mr
          = some (Except.ok (decide (r = mr)))) ∧
    merkleRootRef H [h1] = some h1 ∧
    merkleRootRef H [h1, h2] = some (H h1 h2) ∧
    merkleRootRef H [h1, h2, h3] = some (H (H h1 h2) (H h3 h3)) := by
  refine ⟨checkSingleBlock_nonempty H hashes mr hne, ?_, ?_, ?_⟩
  · simp [merkleRootRef]
  · simp [merkleRootRef, pairStep]
  · simp [merkleRootRef, pairStep]

/-- Witness for C1 at a concrete input: three leaves `[1, 2, 3]` with a
concrete combiner, compared against the root value `0`. -/
theorem check_single_block_merkle_fold_witness :
    (([1, 2, 3] : List Nat) ≠ []) ∧
    ((∃ r, merkleRootRef (fun a b : Nat => 2 * a + 3 * b + 1) [1, 2, 3] = some r ∧
        checkSingleBlock (ε := Error) (fun a b : Nat => 2 * a + 3 * b + 1)
            ([1, 2, 3].map Except.ok) 0
          = some (Except.ok (decide (r = 0)))) ∧
      merkleRootRef (fun a b : Nat => 2 * a + 3 * b + 1) [1] = some 1 ∧
      merkleRootRef (fun a b : Nat => 2 * a + 3 * b + 1) [1, 2] = some (2 * 1 + 3 * 2 + 1) ∧
      merkleRootRef (fun a b : Nat => 2 * a + 3 * b + 1) [1, 2, 3]
        = some (2 * (2 * 1 + 3 * 2 + 1) + 3 * (2 * 3 + 3 * 3 + 1) + 1)) :=
  ⟨by decide,
   check_single_block_merkle_fold (fun a b : Nat => 2 * a + 3 * b + 1)
     [1, 2, 3] 0 1 2 3 (by decide)⟩

/-- C5 counterexample: on a stream yielding zero transactions,
`check_single_block` does not return an error value: it panics (the final
`hashes.pop_front().unwrap()` on the empty deque, line 131 of
`src/cmds/src/blockarchive.rs`), modelled by the result `none`; so the claim
that an empty stream yields "an error" result is false — nothing is returned
at all (though, as claimed, it is never a vacuous pass either). -/
theorem check_single_block_empty_panics :
    checkSingleBlock (fun a b : Nat => a + b) ([] : List (Except Error Nat)) 0
      = none ∧
    (checkSingleBlock (fun a b : Nat => a + b) ([] : List (Except Error Nat)) 0).isSome
      = false :=
  ⟨rfl, rfl⟩

/-- C5 (amended): the transaction stream is fully drained before any hashing;
a transaction-hash read failure makes `check_single_block` return that error —
a hard error, distinct from the `Ok(false)` verdict of a Merkle mismatch —
while a stream of zero transactions makes it panic (`unwrap` of an empty
deque, modelled as `none`) rather than return an error; in neither case is
there a vacuous pass. -/
theorem check_single_block_drain_errors {ε α : Type} [DecidableEq α]
    (H : α → α → α) (txs : List (Except ε α)) (mr : α) (e : ε)
    (herr : drainHashes txs = Except.error e) :
    checkSingleBlock H txs mr = some (Except.error e) ∧
    checkSingleBlock H ([] : List (Except ε α)) mr = none ∧
    some (Except.error e) ≠ some (Except.ok false) := by
  refine ⟨?_, rfl, by simp⟩
  unfold checkSingleBlock
  simp only [herr]

/-- Witness for C5 (amended) at a concrete input: a stream whose second
transaction read fails with an `IoError`. -/
theorem check_single_block_drain_errors_witness :
    (drainHashes [Except.ok 5, Except.error Error.IoError] = Except.error Error.IoError) ∧
    (checkSingleBlock (fun a b : Nat => a + b)
        [Except.ok 5, Except.error Error.IoError] 0
      = some (Except.error Error.IoError) ∧
    checkSingleBlock (fun a b : Nat => a + b) ([] : List (Except Error Nat)) 0
      = none ∧
    some (Except.error Error.IoError) ≠ some (Except.ok false)) :=
  ⟨rfl,
   check_single_block_drain_errors (fun a b : Nat => a + b)
     [Except.ok 5, Except.error Error.IoError] 0 Error.IoError rfl⟩

/-! ## Batch consistency check, `check_all_blocks`
     (`src/cmds/src/blockarchive.rs`, lines 152-182) -/

/-- `check_all_blocks` (lines 152-182).  Each enumerated block is modelled by
the combined result of `archive.get_block(..)` and `FullBlockStream::new(..)`:
an `Except.error` if either fails — which the source `unwrap`s, a panic
(`none`) that aborts the whole batch — or the block's transaction stream and
header merkle root.  On success, `num` is incremented and the verdict of
`check_single_block` is inspected: `Ok(false)` and `Err(_)` increment `errs`;
a panic inside `check_single_block` propagates. -/
def checkAllBlocks {ε α : Type} [DecidableEq α] (H : α → α → α)
    (num errs : Nat) : List (Except ε (List (Except ε α) × α)) → Option (Nat × Nat)
  | [] => some (num, errs)
  | Except.error _ :: _ => none
  | Except.ok (txs, mr) :: rest =>
    match checkSingleBlock H txs mr with
    | none => none
    | some (Except.ok true) => checkAllBlocks H (num + 1) errs rest
    | some (Except.ok false) => checkAllBlocks H (num + 1) (errs + 1) rest
    | some (Except.error _) => checkAllBlocks H (num + 1) (errs + 1) rest

/-- A block entry fails single-block verification when `check_single_block`
returns anything other than the `Ok(true)` verdict. -/
def entryFails {ε α : Type} [DecidableEq α] (H : α → α → α)
    (p : List (Except ε α) × α) : Bool :=
  match checkSingleBlock H p.1 p.2 with
  | some (Except.ok true) => false
  | _ => true

theorem checkSingleBlock_isSome {ε α : Type} [DecidableEq α] (H : α → α → α)
    (txs : List (Except ε α)) (mr : α) (hne : txs ≠ []) :
    ∃ v, checkSingleBlock H txs mr = some v := by
  match hd : drainHashes txs with
  | Except.error e =>
    exact ⟨Except.error e, by unfold checkSingleBlock; simp only [hd]⟩
  | Except.ok hashes =>
    have hlen := drainHashes_ok_length txs hashes hd
    have hne2 : hashes ≠ [] := by
      intro h
      subst h
      exact hne (List.length_eq_zero.mp hlen.symm)
    obtain ⟨r, hr⟩ := merkleRootRef_isSome H hashes hne2
    refine ⟨Except.ok (decide (r = mr)), ?_⟩
    have hcalc := calcLoopF_eq H (hashes.length + 1) hashes (by omega)
    unfold checkSingleBlock
    simp only [hd]
    rw [hcalc]
    unfold refQueue
    rw [hr]

theorem checkAllBlocks_acc {ε α : Type} [DecidableEq α] (H : α → α → α) :
    ∀ (entries : List (List (Except ε α) × α)) (num errs : Nat),
      (∀ p ∈ entries, p.1 ≠ []) →
      checkAllBlocks H num errs (entries.map Except.ok)
        = some (num + entries.length, errs + entries.countP (entryFails H))
  | [], num, errs, _ => by simp [checkAllBlocks]
  | p :: rest, num, errs, hne => by
    obtain ⟨txs, mr⟩ := p
    have hp : txs ≠ [] := hne (txs, mr) (List.mem_cons_self _ _)
    have hrest : ∀ q ∈ rest, q.1 ≠ [] := fun q hq => hne q (List.mem_cons_of_mem _ hq)
    obtain ⟨v, hv⟩ := checkSingleBlock_isSome H txs mr hp
    simp only [List.map_cons, checkAllBlocks, hv]
    rcases v with e | b
    · have hef : entryFails H (txs, mr) = true := by simp [entryFails, hv]
      rw [checkAllBlocks_acc H rest (num + 1) (errs + 1) hrest,
        List.countP_cons_of_pos _ _ hef]
      simp only [List.length_cons, Option.some.injEq, Prod.mk.injEq]
      constructor <;> omega
    · cases b
      · have hef : entryFails H (txs, mr) = true := by simp [entryFails, hv]
        rw [checkAllBlocks_acc H rest (num + 1) (errs + 1) hrest,
          List.countP_cons_of_pos _ _ hef]
        simp only [List.length_cons, Option.some.injEq, Prod.mk.injEq]
        constructor <;> omega
      · have hef : ¬ entryFails H (txs, mr) = true := by simp [entryFails, hv]
        rw [checkAllBlocks_acc H rest (num + 1) errs hrest,
          List.countP_cons_of_neg _ _ hef]
        simp only [List.length_cons, Option.some.injEq, Prod.mk.injEq]
        exact ⟨by omega, trivial⟩

/-- C4 counterexample: one enumerated block whose `get_block` /
`FullBlockStream::new` stage fails with an `IoError` does not become a counted
failure: the source `unwrap`s that result (lines 158-159 of
`src/cmds/src/blockarchive.rs`), a panic that aborts the whole batch (`none`),
instead of the claimed count of 1 block checked and 1 failure. -/
theorem check_all_blocks_read_error_aborts :
    checkAllBlocks (fun a b : Nat => a + b) 0 0
        ([Except.error Error.IoError] :
          List (Except Error (List (Except Error Nat) × Nat))) = none ∧
    (none : Option (Nat × Nat)) ≠ some (1, 1) :=
  ⟨rfl, by simp⟩

/-- C4 (amended): `check_all_blocks` converts failures surfaced by
`check_single_block` — a transaction-hash read error or a Merkle-mismatch
verdict — into an increment of the failure count and continues with the next
enumerated block; however a failure of `get_block` or `FullBlockStream::new`
on one entry is `unwrap`ed (a panic that aborts the whole batch), as is an
empty transaction stream.  For an archive of N enumerated blocks that all
read and decode successfully with non-empty transaction streams, of which
exactly K fail single-block verification, the accumulated counts are N blocks
checked and K failures. -/
theorem check_all_blocks_counts {ε α : Type} [DecidableEq α] (H : α → α → α)
    (entries : List (List (Except ε α) × α))
    (hne : entries.all (fun p => !p.1.isEmpty) = true) :
    checkAllBlocks H 0 0 (entries.map Except.ok)
      = some (entries.length, entries.countP (entryFails H)) := by
  have hne2 : ∀ p ∈ entries, p.1 ≠ [] := by
    intro p hp
    have h1 := List.all_eq_true.mp hne p hp
    simpa using h1
  have h := checkAllBlocks_acc H entries 0 0 hne2
  simpa using h

/-- Witness for C4 (amended): two blocks, the first passing verification
(single transaction `1` matching root `1`), the second failing (root
mismatch). -/
theorem check_all_blocks_counts_witness :
    (([([Except.ok 1], 1), ([Except.ok 2], 9)] :
        List (List (Except Error Nat) × Nat)).all (fun p => !p.1.isEmpty) = true) ∧
    checkAllBlocks (fun a b : Nat => a + b) 0 0
        (([([Except.ok 1], 1), ([Except.ok 2], 9)] :
          List (List (Except Error Nat) × Nat)).map Except.ok)
      = some (([([Except.ok 1], 1), ([Except.ok 2], 9)] :
          List (List (Except Error Nat) × Nat)).length,
        ([([Except.ok 1], 1), ([Except.ok 2], 9)] :
          List (List (Except Error Nat) × Nat)).countP
            (entryFails (fun a b : Nat => a + b))) :=
  ⟨rfl,
   check_all_blocks_counts (fun a b : Nat => a + b)
     [([Except.ok 1], 1), ([Except.ok 2], 9)] rfl⟩

/-! ## Parent-link check, `check_links`
     (`src/cmds/src/blockarchive.rs`, lines 73-95) -/

/-- A block header as `check_links` uses it: the block's own hash (`h.hash()`)
and its declared parent hash (`h.prev_hash`). -/
structure BHeader (β : Type) where
  hash : β
  prev : β
deriving DecidableEq, Repr

/-- The first pass of `check_links` (lines 81-87): for each enumerated block
hash, insert it into the seen-set (`block_hashes.insert(block_hash)`, a
`BTreeSet` modelled as a duplicate-free list), then read its header and defer
it to the `not_found` list when its `prev_hash` is not yet in the seen-set. -/
def linksPass1 {β : Type} [DecidableEq β] (headerOf : β → BHeader β) :
    List β → List β → List (BHeader β) → List β × List (BHeader β)
  | [], seen, notFound => (seen, notFound)
  | b :: rest, seen, notFound =>
    let seen2 := seen.insert b
    let h := headerOf b
    if h.prev ∈ seen2 then linksPass1 headerOf rest seen2 notFound
    else linksPass1 headerOf rest seen2 (notFound ++ [h])

/-- `check_links` (lines 73-95): run the first pass over the enumeration
order, then re-check every deferred header against the complete hash set
(lines 89-93); the headers still unresolved are the ones reported
("dont have parent of block {h.hash()}"). -/
def checkLinks {β : Type} [DecidableEq β] (headerOf : β → BHeader β)
    (order : List β) : List (BHeader β) :=
  let p := linksPass1 headerOf order [] []
  p.2.filter (fun h => !decide (h.prev ∈ p.1))

theorem linksPass1_seen_mem {β : Type} [DecidableEq β] (headerOf : β → BHeader β) :
    ∀ (order seen : List β) (notFound : List (BHeader β)) (x : β),
      x ∈ (linksPass1 headerOf order seen notFound).1 ↔ x ∈ seen ∨ x ∈ order
  | [], seen, notFound, x => by simp [linksPass1]
  | b :: rest, seen, notFound, x => by
    simp only [linksPass1]
    by_cases hc : (headerOf b).prev ∈ seen.insert b
    · rw [if_pos hc, linksPass1_seen_mem headerOf rest _ _ x]
      simp [List.mem_insert_iff]
      tauto
    · rw [if_neg hc, linksPass1_seen_mem headerOf rest _ _ x]
      simp [List.mem_insert_iff]
      tauto

theorem linksPass1_notFound_mem {β : Type} [DecidableEq β] (headerOf : β → BHeader β) :
    ∀ (order seen : List β) (notFound : List (BHeader β)) (h : BHeader β),
      h ∈ (linksPass1 headerOf order seen notFound).2 →
        h ∈ notFound ∨ ∃ b ∈ order, h = headerOf b
  | [], seen, notFound, h => by simp [linksPass1]
  | b :: rest, seen, notFound, h => by
    simp only [linksPass1]
    by_cases hc : (headerOf b).prev ∈ seen.insert b
    · rw [if_pos hc]
      intro hm
      rcases linksPass1_notFound_mem headerOf rest _ _ h hm with h1 | ⟨b2, hb2, he⟩
      · exact Or.inl h1
      · exact Or.inr ⟨b2, List.mem_cons_of_mem _ hb2, he⟩
    · rw [if_neg hc]
      intro hm
      rcases linksPass1_notFound_mem headerOf rest _ _ h hm with h1 | ⟨b2, hb2, he⟩
      · rcases List.mem_append.mp h1 with h2 | h2
        · exact Or.inl h2
        · exact Or.inr ⟨b, List.mem_cons_self _ _, List.mem_singleton.mp h2⟩
      · exact Or.inr ⟨b2, List.mem_cons_of_mem _ hb2, he⟩

/-- Every header reported by `check_links` has a parent hash that is absent
from the full set of enumerated hashes. -/
theorem checkLinks_reported_prev_absent {β : Type} [DecidableEq β]
    (headerOf : β → BHeader β) (order : List β) (h : BHeader β)
    (hr : h ∈ checkLinks headerOf order) : h.prev ∉ order := by
  unfold checkLinks at hr
  have hf := List.mem_filter.mp hr
  intro hmem
  have : h.prev ∈ (linksPass1 headerOf order [] []).1 :=
    (linksPass1_seen_mem headerOf order [] [] h.prev).mpr (Or.inr hmem)
  simp [this] at hf

theorem linksPass1_notFound_mono {β : Type} [DecidableEq β]
    (headerOf : β → BHeader β) :
    ∀ (order seen : List β) (notFound : List (BHeader β)) (h : BHeader β),
      h ∈ notFound → h ∈ (linksPass1 headerOf order seen notFound).2
  | [], seen, notFound, h => fun hm => hm
  | b :: rest, seen, notFound, h => by
    intro hm
    simp only [linksPass1]
    by_cases hc : (headerOf b).prev ∈ seen.insert b
    · rw [if_pos hc]
      exact linksPass1_notFound_mono headerOf rest _ _ h hm
    · rw [if_neg hc]
      exact linksPass1_notFound_mono headerOf rest _ _ h
        (List.mem_append_left _ hm)

theorem linksPass1_notFound_complete {β : Type} [DecidableEq β]
    (headerOf : β → BHeader β) :
    ∀ (order seen : List β) (notFound : List (BHeader β)) (b : β),
      b ∈ order → (headerOf b).prev ∉ seen → (headerOf b).prev ∉ order →
      headerOf b ∈ (linksPass1 headerOf order seen notFound).2
  | [], seen, notFound, b => by intro hm; cases hm
  | b0 :: rest, seen, notFound, b => by
    intro hmem hseen horder
    have hprev_ne_b0 : (headerOf b).prev ≠ b0 :=
      fun he => horder (he ▸ List.mem_cons_self _ _)
    rcases List.mem_cons.mp hmem with rfl | hmem2
    · have hc : (headerOf b).prev ∉ seen.insert b := by
        rw [List.mem_insert_iff]
        rintro (h1 | h1)
        · exact hprev_ne_b0 h1
        · exact hseen h1
      simp only [linksPass1, if_neg hc]
      exact linksPass1_notFound_mono headerOf rest _ _ (headerOf b)
        (List.mem_append_right _ (List.mem_singleton_self _))
    · have hseen2 : (headerOf b).prev ∉ seen.insert b0 := by
        rw [List.mem_insert_iff]
        rintro (h1 | h1)
        · exact hprev_ne_b0 h1
        · exact hseen h1
      have horder2 : (headerOf b).prev ∉ rest :=
        fun h1 => horder (List.mem_cons_of_mem _ h1)
      simp only [linksPass1]
      by_cases hc : (headerOf b0).prev ∈ seen.insert b0
      · rw [if_pos hc]
        exact linksPass1_notFound_complete headerOf rest _ _ b hmem2 hseen2 horder2
      · rw [if_neg hc]
        exact linksPass1_notFound_complete headerOf rest _ _ b hmem2 hseen2 horder2

/-- C3 (amended): `check_links` reports exactly the headers of the enumerated
blocks whose declared parent hash is absent from the archive's complete hash
set — so on an archive holding a valid chain plus one injected block with an
absent parent, the report contains the injected block together with the
chain's root block (whose parent is likewise absent, there being no
genesis/root exclusion in the source); the reported set depends only on the
set of enumerated hashes, hence is the same for every enumeration order, and
the deferred blocks collected on the first pass are re-checked against the
complete hash set after enumeration finishes, with only those still
unresolved reported. -/
theorem check_links_missing_parents {β : Type} [DecidableEq β]
    (headerOf : β → BHeader β) (order : List β) (h : BHeader β) :
    h ∈ checkLinks headerOf order ↔
      ∃ b ∈ order, h = headerOf b ∧ h.prev ∉ order := by
  constructor
  · intro hr
    have habs := checkLinks_reported_prev_absent headerOf order h hr
    unfold checkLinks at hr
    have hf := List.mem_filter.mp hr
    rcases linksPass1_notFound_mem headerOf order [] [] h hf.1 with h1 | ⟨b, hb, he⟩
    · cases h1
    · exact ⟨b, hb, he, habs⟩
  · rintro ⟨b, hb, rfl, habs⟩
    unfold checkLinks
    apply List.mem_filter.mpr
    constructor
    · apply linksPass1_notFound_complete headerOf order [] [] b hb _ habs
      intro h1
      cases h1
    · have : (headerOf b).prev ∉ (linksPass1 headerOf order [] []).1 := by
        rw [linksPass1_seen_mem]
        rintro (h1 | h1)
        · cases h1
        · exact habs h1
      simp [this]

/-- The header map of the C3 failing archive: block `1` is the chain's root
(parent `100`, absent from the archive), block `2` extends it (parent `1`),
and block `3` is the injected block (parent `200`, absent). -/
def c3HeaderOf : Nat → BHeader Nat :=
  fun b => if b = 1 then ⟨1, 100⟩ else if b = 2 then ⟨2, 1⟩ else ⟨3, 200⟩

/-- C3, evaluation at the failing input: for the valid chain `1 ← 2` plus one
injected block `3` whose parent is absent, `check_links` reports TWO blocks —
the injected block `3` and also the chain's root block `1` (whose parent is
likewise absent, since the source implements no genesis/root exclusion even
though the CLI help for `check linked` promises "except the Genesis block") —
contradicting the claim that exactly the one injected block is reported. -/
theorem check_links_reports_root_too :
    checkLinks c3HeaderOf [1, 2, 3] = [⟨1, 100⟩, ⟨3, 200⟩] ∧
    checkLinks c3HeaderOf [3, 2, 1] = [⟨3, 200⟩, ⟨1, 100⟩] ∧
    (checkLinks c3HeaderOf [1, 2, 3]).length = 2 := by
  refine ⟨?_, ?_, ?_⟩ <;> decide

/-- C10: in the first pass of `check_links`, each enumerated block's own hash
is inserted into the seen-set before its parent hash is looked up; therefore a
block whose declared `prev_hash` equals its own hash is never deferred, and
hence never reported as missing-parent, in every enumeration order — even when
no other block of the archive carries that hash. -/
theorem check_links_self_parent_never_reported {β : Type} [DecidableEq β]
    (headerOf : β → BHeader β) (order : List β) (b : β)
    (hmem : b ∈ order) (hself : (headerOf b).prev = b) :
    headerOf b ∉ checkLinks headerOf order := by
  intro hr
  have habs := checkLinks_reported_prev_absent headerOf order (headerOf b) hr
  rw [hself] at habs
  exact habs hmem

/-- Witness for C10 at a concrete input: a one-block archive whose only block
`7` declares itself as its own parent. -/
theorem check_links_self_parent_never_reported_witness :
    (7 ∈ [7]) ∧ ((fun b : Nat => BHeader.mk b b) 7).prev = 7 ∧
    (fun b : Nat => BHeader.mk b b) 7 ∉ checkLinks (fun b : Nat => BHeader.mk b b) [7] :=
  ⟨by decide, rfl,
   check_links_self_parent_never_reported (fun b : Nat => BHeader.mk b b) [7] 7
     (by decide) rfl⟩

/-! ## Path derivation, `get_path_from_hash`
     (`src/lib/src/sfb_archive.rs`, lines 42-50)

A filesystem path is modelled as its list of components (each a `List Char`);
`PathBuf::push` appends a component.  A `BlockHash` is represented by its
canonical 64-character hex text, so `hash.encode_hex()` is the identity on
that text (as in the source's own test `check_path_from_hash`, where
`from_hex` and `encode_hex` round-trip the same string). -/

/-- A block hash at the external-codec boundary: its canonical hex text. -/
structure BlockHash where
  hex : List Char
deriving DecidableEq, Repr

/-- `Path::set_extension(ext)` applied to a single file name: if the name has
an extension (a `.` after its first character), the part after the last `.`
is replaced by `ext`, otherwise `.ext` is appended. -/
def setFileExtension (name ext : List Char) : List Char :=
  let stem :=
    if '.' ∈ name.drop 1 then
      ((name.reverse.dropWhile (fun c => !decide (c = '.'))).drop 1).reverse
    else name
  stem ++ '.' :: ext

/-- `PathBuf::set_extension(ext)`: replace the extension of the path's last
component. -/
def setPathExtension : List (List Char) → List Char → List (List Char)
  | [], _ => []
  | [last], ext => [setFileExtension last ext]
  | c :: c2 :: rest, ext => c :: setPathExtension (c2 :: rest) ext

/-- `get_path_from_hash` (`src/lib/src/sfb_archive.rs`, lines 42-50): clone
the root path, push `&s[62..]`, push `&s[60..62]`, push `s`, then
`set_extension("bin")`, where `s` is the hash's hex text. -/
def get_path_from_hash (root_path : List (List Char)) (hash : BlockHash) :
    List (List Char) :=
  let s := hash.hex
  setPathExtension
    (root_path ++ [s.drop 62] ++ [(s.drop 60).take 2] ++ [s])
    ['b', 'i', 'n']

/-- The hex alphabet of the canonical hash text. -/
def isHexChar (c : Char) : Bool :=
  ('0' ≤ c && c ≤ '9') || ('a' ≤ c && c ≤ 'f') || ('A' ≤ c && c ≤ 'F')

theorem setPathExtension_append :
    ∀ (l : List (List Char)) (x ext : List Char),
      setPathExtension (l ++ [x]) ext = l ++ [setFileExtension x ext]
  | [], x, ext => rfl
  | [c], x, ext => rfl
  | c :: c2 :: rest, x, ext => by
    have ih := setPathExtension_append (c2 :: rest) x ext
    show c :: setPathExtension ((c2 :: rest) ++ [x]) ext
        = c :: ((c2 :: rest) ++ [setFileExtension x ext])
    rw [ih]

theorem setFileExtension_no_dot (name ext : List Char)
    (hnd : '.' ∉ name) : setFileExtension name ext = name ++ '.' :: ext := by
  unfold setFileExtension
  have : '.' ∉ name.drop 1 := fun h => hnd (List.mem_of_mem_drop h)
  rw [if_neg this]

/-- C2: path derivation is a pure, deterministic function of the hash's
64-character canonical hex text `s`: `get_path_from_hash` returns exactly
`root / s[62..64] / s[60..62] / (s ++ ".bin")`; hex digits contain no `.`, so
`set_extension` appends, and for `|s| = 64` the slice `s[62..]` taken by the
source equals the claim's `s[62..64]`.  The "in particular" instance (a hash
ending in `c531` giving `root/31/c5/<hex>.bin`) is the witness below, at the
hash of the source's own test. -/
theorem get_path_from_hash_shards (root : List (List Char))
    (s : List Char) (hlen : s.length = 64) (hhex : s.all isHexChar = true) :
    get_path_from_hash root ⟨s⟩
      = root ++ [(s.drop 62).take 2, (s.drop 60).take 2, s ++ '.' :: ['b', 'i', 'n']] := by
  have hnd : '.' ∉ s := by
    intro h
    have h2 := List.all_eq_true.mp hhex '.' h
    rw [show isHexChar '.' = false from by decide] at h2
    cases h2
  have hd62 : (s.drop 62).take 2 = s.drop 62 := by
    apply List.take_of_length_le
    simp [hlen]
  show setPathExtension
      (root ++ [s.drop 62] ++ [(s.drop 60).take 2] ++ [s]) ['b', 'i', 'n'] = _
  rw [setPathExtension_append _ s ['b', 'i', 'n'],
    setFileExtension_no_dot s ['b', 'i', 'n'] hnd, ← hd62]
  simp

/-- Witness for C2 at the hash of the source's own test
`check_path_from_hash`: the hex ends in `c531`, and the derived path is
`root/31/c5/<full-hex>.bin`. -/
theorem get_path_from_hash_shards_witness :
    (("00000000000000000124a294b9e1e65224f0636ffd4dadac777bed5e709dc531").data.length = 64 ∧
      ("00000000000000000124a294b9e1e65224f0636ffd4dadac777bed5e709dc531").data.all
        isHexChar = true) ∧
    get_path_from_hash [['/']]
        ⟨("00000000000000000124a294b9e1e65224f0636ffd4dadac777bed5e709dc531").data⟩
      = [['/']] ++
        [(("00000000000000000124a294b9e1e65224f0636ffd4dadac777bed5e709dc531").data.drop 62).take 2,
         (("00000000000000000124a294b9e1e65224f0636ffd4dadac777bed5e709dc531").data.drop 60).take 2,
         ("00000000000000000124a294b9e1e65224f0636ffd4dadac777bed5e709dc531").data
           ++ '.' :: ['b', 'i', 'n']] :=
  ⟨⟨by decide, by decide⟩,
   get_path_from_hash_shards [['/']]
     ("00000000000000000124a294b9e1e65224f0636ffd4dadac777bed5e709dc531").data
     (by decide) (by decide)⟩

/-- The sharding components at the test hash are literally `31` and `c5`:
the archive shards first by the last two hex characters, then by the
next-to-last two. -/
theorem get_path_from_hash_c531_literal :
    get_path_from_hash [['/']]
        ⟨("00000000000000000124a294b9e1e65224f0636ffd4dadac777bed5e709dc531").data⟩
      = [['/'], ['3', '1'], ['c', '5'],
         ("00000000000000000124a294b9e1e65224f0636ffd4dadac777bed5e709dc531.bin").data] := by
  decide

/-! ## The file-based archive operations (`src/lib/src/sfb_archive.rs`,
     lines 78-98)

`get_block`, `block_exists`, `store_block`, `block_size` and `block_header`
of `SimpleFileBasedBlockArchive` are unimplemented stubs (`todo!()`), so the
operations themselves are modelled from the spec (sections 4.1 and 4.2) over
an explicit filesystem state: a finite association of paths to file
contents.  Path derivation uses the real `get_path_from_hash` embedded
above. -/

/-- The filesystem owned by the archive: an association of paths to byte
contents. -/
abbrev Fs : Type := List (List (List Char) × List Nat)

/-- File lookup by path. -/
def fsLookup : Fs → List (List Char) → Option (List Nat)
  | [], _ => none
  | (q, bytes) :: rest, p => if q = p then some bytes else fsLookup rest p

/-- Modelled from the spec: `block_size` is a `todo!()` stub in the source
(`src/lib/src/sfb_archive.rs`, line 92); per the spec (section 4.1,
"size → file length") it returns the byte length of the file at the derived
path and fails with `BlockNotFound` if absent, leaving the filesystem
unchanged. -/
def block_size_m (fs : Fs) (root : List (List Char)) (h : BlockHash) :
    Except Error Nat × Fs :=
  match fsLookup fs (get_path_from_hash root h) with
  | none => (Except.error Error.BlockNotFound, fs)
  | some bytes => (Except.ok bytes.length, fs)

/-- Modelled from the spec: `block_header` is a `todo!()` stub in the source
(`src/lib/src/sfb_archive.rs`, line 96); per the spec (section 4.1) it reads
and decodes only the fixed-size header prefix (80 bytes), fails with
`BlockNotFound` if the file is absent and with a decode error if the stored
bytes are shorter than a header, leaving the filesystem unchanged. -/
def block_header_m (fs : Fs) (root : List (List Char)) (h : BlockHash) :
    Except Error (List Nat) × Fs :=
  match fsLookup fs (get_path_from_hash root h) with
  | none => (Except.error Error.BlockNotFound, fs)
  | some bytes =>
    if bytes.length < 80 then (Except.error Error.DecodeError, fs)
    else (Except.ok (bytes.take 80), fs)

/-- Modelled from the spec: `get_block` is a `todo!()` stub in the source
(`src/lib/src/sfb_archive.rs`, line 78); per the spec (section 4.1) it
returns a readable stream over the stored entry's bytes and fails with
`BlockNotFound` if absent, leaving the filesystem unchanged. -/
def get_block_m (fs : Fs) (root : List (List Char)) (h : BlockHash) :
    Except Error (List Nat) × Fs :=
  match fsLookup fs (get_path_from_hash root h) with
  | none => (Except.error Error.BlockNotFound, fs)
  | some bytes => (Except.ok bytes, fs)

/-- C9: for every hash that is not present in the archive (no file exists at
its derived path), each of `block_header`, `get_block` and `block_size` fails
with the `BlockNotFound` error and leaves the archive state unchanged — no
partial side effects. -/
theorem missing_block_not_found (fs : Fs) (root : List (List Char))
    (h : BlockHash) (habs : fsLookup fs (get_path_from_hash root h) = none) :
    block_header_m fs root h = (Except.error Error.BlockNotFound, fs) ∧
    get_block_m fs root h = (Except.error Error.BlockNotFound, fs) ∧
    block_size_m fs root h = (Except.error Error.BlockNotFound, fs) := by
  unfold block_header_m get_block_m block_size_m
  rw [habs]
  exact ⟨rfl, rfl, rfl⟩

/-- Witness for C9 at a concrete input: the empty archive and an arbitrary
hash. -/
theorem missing_block_not_found_witness :
    fsLookup [] (get_path_from_hash [['/']] ⟨['a']⟩) = none ∧
    (block_header_m [] [['/']] ⟨['a']⟩ = (Except.error Error.BlockNotFound, []) ∧
     get_block_m [] [['/']] ⟨['a']⟩ = (Except.error Error.BlockNotFound, []) ∧
     block_size_m [] [['/']] ⟨['a']⟩ = (Except.error Error.BlockNotFound, [])) :=
  ⟨rfl, missing_block_not_found [] [['/']] ⟨['a']⟩ rfl⟩

/-! ## The `header` command (`src/cmds/src/blockarchive.rs`, lines 184-208) -/

/-- The `header` command: on a successful header query, print the hex
encoding or the debug rendering of the header and return success; on
`Error::BlockNotFound`, print "Block not found" and return success; any other
error propagates.  The returned value is the list of printed lines, or the
propagated error. -/
def headerCmd {α : Type} (res : Except Error α)
    (hexEnc debugFmt : α → List Char) (hex : Bool) :
    Except Error (List (List Char)) :=
  match res with
  | Except.ok h => Except.ok [if hex then hexEnc h else debugFmt h]
  | Except.error Error.BlockNotFound => Except.ok [("Block not found").data]
  | Except.error e => Except.error e

/-- C8: the library's error type provides the distinct kinds `BlockNotFound`,
`DecodeError` and `IoError` as representable values of its `Result` type, and
the `header` command surfaces `BlockNotFound` as a recoverable negative
result — it matches on `Error::BlockNotFound`, prints an informational
message, and returns success — while other errors propagate. -/
theorem error_kinds_and_header_recovery {α : Type}
    (hexEnc debugFmt : α → List Char) (hex : Bool) (h : α) :
    Error.BlockNotFound ≠ Error.DecodeError ∧
    Error.BlockNotFound ≠ Error.IoError ∧
    Error.DecodeError ≠ Error.IoError ∧
    headerCmd (Except.error Error.BlockNotFound) hexEnc debugFmt hex
      = Except.ok [("Block not found").data] ∧
    headerCmd (Except.error Error.DecodeError) hexEnc debugFmt hex
      = Except.error Error.DecodeError ∧
    headerCmd (Except.error Error.IoError) hexEnc debugFmt hex
      = Except.error Error.IoError ∧
    headerCmd (Except.ok h) hexEnc debugFmt hex
      = Except.ok [if hex then hexEnc h else debugFmt h] :=
  ⟨by decide, by decide, by decide, rfl, rfl, rfl, rfl⟩

/-! ## Enumeration stream cancellation
     (`src/lib/src/block_archive.rs`, lines 65-73)

The background task's lifecycle is modelled as a state with a step function
for each `JoinHandle` operation the source uses: `is_finished` observes the
state, `abort` cancels a task that is still running (the traversal task
suspends at every filesystem and channel await, so cancellation takes
effect), and leaves a finished task unchanged. -/

/-- Lifecycle state of the background traversal task. -/
inductive TaskState where
  | running
  | finished
  | aborted
deriving DecidableEq, Repr

/-- `JoinHandle::is_finished`. -/
def isFinishedTask : TaskState → Bool
  | TaskState.finished => true
  | _ => false

/-- `JoinHandle::abort`: cancels a running task; a task that already finished
(or was already aborted) is unaffected. -/
def abortTask : TaskState → TaskState
  | TaskState.running => TaskState.aborted
  | s => s

/-- `Drop for BlockHashListStreamFromChannel` (lines 65-73): when the stream
is dropped, return without acting if the background task `is_finished`,
otherwise `abort` it. -/
def dropStream (s : TaskState) : TaskState :=
  if isFinishedTask s then s else abortTask s

/-- C6: dropping the enumeration stream before exhaustion cancels (aborts) the
background traversal task unless that task has already finished; after the
drop the background task is never left in the running state. -/
theorem drop_cancels_background_task :
    dropStream TaskState.running = TaskState.aborted ∧
    dropStream TaskState.finished = TaskState.finished ∧
    dropStream TaskState.aborted = TaskState.aborted ∧
    ∀ s : TaskState, dropStream s ≠ TaskState.running :=
  ⟨rfl, rfl, rfl, by intro s; cases s <;> decide⟩

/-! ## Background traversal and failure observability
     (`src/lib/src/sfb_archive.rs`, lines 53-72, `block_list_bgrnd`;
      `src/lib/src/block_archive.rs`, lines 55-61, `poll_next`) -/

/-- One entry of the archive's directory tree: a subdirectory (with a flag
saying whether `read_dir` will succeed on it) or a file with the given name
stem. -/
inductive FsEntry where
  | dir (readable : Bool) (entries : List FsEntry)
  | file (stem : List Char)

/-- `BlockHash::from_hex` succeeds exactly on 64-character hex stems. -/
def hexOk (stem : List Char) : Bool :=
  decide (stem.length = 64) && stem.all isHexChar

mutual
def entryWeight : FsEntry → Nat
  | FsEntry.file _ => 1
  | FsEntry.dir _ es => 1 + entriesWeight es
def entriesWeight : List FsEntry → Nat
  | [] => 0
  | e :: es => entryWeight e + entriesWeight es
end

/-- The inner loop of `block_list_bgrnd` (lines 60-70): the popped directory's
entries in order; a subdirectory is pushed onto the work stack, a file's stem
is hex-decoded and the hash sent on the channel.  A stem that fails decoding
is an `unwrap` panic: the first component becomes `none` and the second
carries the hashes already sent. -/
def procEntries : List FsEntry → List (Bool × List FsEntry) → List BlockHash →
    Option (List (Bool × List FsEntry)) × List BlockHash
  | [], stack, sent => (some stack, sent)
  | FsEntry.dir r es :: rest, stack, sent => procEntries rest ((r, es) :: stack) sent
  | FsEntry.file stem :: rest, stack, sent =>
    if hexOk stem then procEntries rest stack (sent ++ [⟨stem⟩])
    else (none, sent)

def stackWeight : List (Bool × List FsEntry) → Nat
  | [] => 0
  | (_, es) :: rest => 1 + entriesWeight es + stackWeight rest

/-- The outer loop of `block_list_bgrnd` (lines 56-71), fuelled: pop a
directory off the work stack; an unreadable directory is a `read_dir`-`unwrap`
panic; otherwise process its entries.  Returns the hashes sent on the channel
and whether the task panicked; `none` only on fuel exhaustion, which
`walkGo_fuel` rules out for the fuel `blockListBgrnd` supplies. -/
def walkGo : Nat → List (Bool × List FsEntry) → List BlockHash →
    Option (List BlockHash × Bool)
  | 0, _, _ => none
  | _ + 1, [], sent => some (sent, false)
  | fuel + 1, (readable, es) :: stack, sent =>
    if readable then
      match procEntries es stack sent with
      | (some stack2, sent2) => walkGo fuel stack2 sent2
      | (none, sent2) => some (sent2, true)
    else some (sent, true)

/-- `block_list_bgrnd` run on the archive's root directory. -/
def blockListBgrnd (rootReadable : Bool) (rootEntries : List FsEntry) :
    List BlockHash × Bool :=
  match walkGo (entriesWeight rootEntries + 2) [(rootReadable, rootEntries)] [] with
  | some r => r
  | none => ([], true)

theorem procEntries_weight :
    ∀ (es : List FsEntry) (stack : List (Bool × List FsEntry))
      (sent : List BlockHash) (stack2 : List (Bool × List FsEntry))
      (sent2 : List BlockHash),
      procEntries es stack sent = (some stack2, sent2) →
      stackWeight stack2 ≤ entriesWeight es + stackWeight stack
  | [], stack, sent, stack2, sent2 => by
    intro h
    simp only [procEntries, Prod.mk.injEq, Option.some.injEq] at h
    rw [← h.1]
    simp [entriesWeight]
  | FsEntry.dir r es :: rest, stack, sent, stack2, sent2 => by
    intro h
    have ih := procEntries_weight rest ((r, es) :: stack) sent stack2 sent2 h
    simp only [entriesWeight, entryWeight, stackWeight] at ih ⊢
    omega
  | FsEntry.file stem :: rest, stack, sent, stack2, sent2 => by
    intro h
    simp only [procEntries] at h
    by_cases hx : hexOk stem
    · rw [if_pos hx] at h
      have ih := procEntries_weight rest stack (sent ++ [⟨stem⟩]) stack2 sent2 h
      simp only [entriesWeight, entryWeight] at ih ⊢
      omega
    · rw [if_neg hx] at h
      simp only [Prod.mk.injEq] at h
      exact Option.noConfusion h.1

/-- With fuel exceeding the stack's weight, the fuelled walk terminates. -/
theorem walkGo_fuel :
    ∀ (fuel : Nat) (stack : List (Bool × List FsEntry)) (sent : List BlockHash),
      stackWeight stack < fuel → walkGo fuel stack sent ≠ none
  | 0, stack, sent => by intro h; omega
  | fuel + 1, [], sent => by intro _ h; cases h
  | fuel + 1, (readable, es) :: stack, sent => by
    intro hw
    simp only [walkGo]
    by_cases hr : readable
    · rw [if_pos hr]
      match hp : procEntries es stack sent with
      | (some stack2, sent2) =>
        have hle := procEntries_weight es stack sent stack2 sent2 hp
        have : stackWeight stack2 < fuel := by
          simp only [stackWeight] at hw
          omega
        exact walkGo_fuel fuel stack2 sent2 this
      | (none, sent2) => intro h; cases h
    · rw [if_neg hr]; intro h; cases h

theorem procEntries_sent_hexOk :
    ∀ (es : List FsEntry) (stack : List (Bool × List FsEntry))
      (sent : List BlockHash),
      (∀ h ∈ sent, hexOk h.hex = true) →
      ∀ h ∈ (procEntries es stack sent).2, hexOk h.hex = true
  | [], stack, sent => fun hs => hs
  | FsEntry.dir r es :: rest, stack, sent => fun hs =>
    procEntries_sent_hexOk rest ((r, es) :: stack) sent hs
  | FsEntry.file stem :: rest, stack, sent => by
    intro hs
    simp only [procEntries]
    by_cases hx : hexOk stem
    · rw [if_pos hx]
      refine procEntries_sent_hexOk rest stack (sent ++ [⟨stem⟩]) ?_
      intro h hm
      rcases List.mem_append.mp hm with h1 | h1
      · exact hs h h1
      · rw [List.mem_singleton.mp h1]
        exact hx
    · rw [if_neg hx]
      exact hs

theorem walkGo_sent_hexOk :
    ∀ (fuel : Nat) (stack : List (Bool × List FsEntry)) (sent : List BlockHash)
      (res : List BlockHash × Bool),
      (∀ h ∈ sent, hexOk h.hex = true) →
      walkGo fuel stack sent = some res →
      ∀ h ∈ res.1, hexOk h.hex = true
  | 0, stack, sent, res => by intro _ h; cases h
  | fuel + 1, [], sent, res => by
    intro hs h
    cases h
    exact hs
  | fuel + 1, (readable, es) :: stack, sent, res => by
    intro hs hw
    simp only [walkGo] at hw
    by_cases hr : readable
    · rw [if_pos hr] at hw
      have hinv := procEntries_sent_hexOk es stack sent hs
      match hp : procEntries es stack sent with
      | (some stack2, sent2) =>
        rw [hp] at hw hinv
        exact walkGo_sent_hexOk fuel stack2 sent2 res hinv hw
      | (none, sent2) =>
        rw [hp] at hw hinv
        cases hw
        exact hinv
    · rw [if_neg hr] at hw
      cases hw
      exact hs

/-- A step equation for the fuelled walk over a pushed directory. -/
theorem walkGo_cons (fuel : Nat) (readable : Bool) (es : List FsEntry)
    (stack : List (Bool × List FsEntry)) (sent : List BlockHash) :
    walkGo (fuel + 1) ((readable, es) :: stack) sent
      = if readable then
          match procEntries es stack sent with
          | (some stack2, sent2) => walkGo fuel stack2 sent2
          | (none, sent2) => some (sent2, true)
        else some (sent, true) := rfl

theorem walkGo_nil (fuel : Nat) (sent : List BlockHash) :
    walkGo (fuel + 1) [] sent = some (sent, false) := rfl

/-- Processing a directory of valid block files sends exactly their hashes,
in order, without panicking or pushing work. -/
theorem procEntries_files :
    ∀ (hs : List BlockHash) (stack : List (Bool × List FsEntry))
      (sent : List BlockHash),
      (∀ h ∈ hs, hexOk h.hex = true) →
      procEntries (hs.map (fun h => FsEntry.file h.hex)) stack sent
        = (some stack, sent ++ hs)
  | [], stack, sent => by intro _; simp [procEntries]
  | h :: rest, stack, sent => by
    intro hok
    simp only [List.map_cons, procEntries,
      if_pos (hok h (List.mem_cons_self _ _))]
    have he : (⟨h.hex⟩ : BlockHash) = h := rfl
    rw [he, procEntries_files rest stack (sent ++ [h])
      (fun x hx => hok x (List.mem_cons_of_mem _ hx))]
    simp

/-- Replaying a list of validly-named block files as an archive: the walk
succeeds and sends exactly those hashes. -/
theorem replay_walk (hs : List BlockHash)
    (hok : ∀ h ∈ hs, hexOk h.hex = true) :
    blockListBgrnd true (hs.map (fun h => FsEntry.file h.hex)) = (hs, false) := by
  unfold blockListBgrnd
  rw [show entriesWeight (hs.map (fun h => FsEntry.file h.hex)) + 2
      = (entriesWeight (hs.map (fun h => FsEntry.file h.hex)) + 1) + 1 from by omega]
  rw [walkGo_cons, if_pos rfl, procEntries_files hs [] [] hok]
  simp only [List.nil_append, walkGo_nil]

theorem blockListBgrnd_sent_hexOk (r : Bool) (es : List FsEntry) :
    ∀ h ∈ (blockListBgrnd r es).1, hexOk h.hex = true := by
  unfold blockListBgrnd
  match hw : walkGo (entriesWeight es + 2) [(r, es)] [] with
  | some res =>
    exact walkGo_sent_hexOk (entriesWeight es + 2) [(r, es)] [] res
      (by intro h hm; cases hm) hw
  | none => intro h hm; cases hm

/-- The consumer-visible terminal event of the enumeration stream.  The
stream's item type is `BlockHash` and `poll_next` merely delegates to
`Receiver::poll_recv` (`src/lib/src/block_archive.rs`, lines 55-61), which
yields `None` once the sender is dropped — whether the background task
returned normally or panicked — so end-of-stream is the only terminal event
representable. -/
inductive StreamEnd where
  | endOfStream
deriving DecidableEq, Repr

/-- What the consumer of `block_list` observes for a given archive root: the
hashes the background task sent before it returned or panicked, followed by
end-of-stream. -/
def consumerObserved (rootReadable : Bool) (rootEntries : List FsEntry) :
    List BlockHash × StreamEnd :=
  ((blockListBgrnd rootReadable rootEntries).1, StreamEnd.endOfStream)

/-- C7 counterexample: on an archive whose root contains one unreadable
subdirectory, the background task panics (`read_dir(..).unwrap()`,
`src/lib/src/sfb_archive.rs` line 57), and what the consumer observes is
identical to the observation of an empty archive — the stream silently ends
as if the archive were exhausted, with no terminal error value (none is even
representable, the item type being `BlockHash`); this refutes the claim that
the sequence terminates with an observable terminal error. -/
theorem walk_failure_silent :
    (blockListBgrnd true [FsEntry.dir false []]).2 = true ∧
    consumerObserved true [FsEntry.dir false []] = consumerObserved true [] :=
  ⟨rfl, rfl⟩

/-- C7 (amended): when the background traversal task hits an unhandled error
(unreadable directory or a file name that fails hex decoding) it panics; the
channel sender is dropped and the consumer's stream simply ends after the
hashes sent before the failure.  No terminal error value is delivered:
every observation — including that of a failing walk — is exactly reproduced
by the successful walk of some archive, so a walk failure is indistinguishable
from normal exhaustion. -/
theorem walk_failures_unobservable (rootReadable : Bool)
    (rootEntries : List FsEntry) :
    ∃ entries2 : List FsEntry,
      (blockListBgrnd true entries2).2 = false ∧
      consumerObserved rootReadable rootEntries = consumerObserved true entries2 := by
  refine ⟨(blockListBgrnd rootReadable rootEntries).1.map
    (fun h => FsEntry.file h.hex), ?_, ?_⟩
  · rw [replay_walk _ (blockListBgrnd_sent_hexOk _ _)]
  · unfold consumerObserved
    rw [replay_walk _ (blockListBgrnd_sent_hexOk _ _)]

end BlockArchive
